import Mathlib

/-!
# protoc-gen-generic: descriptor walker and type mapper

A shallow embedding of `main.go`.

* Go strings are modelled by `String`.  `strings.TrimPrefix`, `+=` and
  `fmt.Sprintf(".%s.", pkg)` act on the sequence of characters (`String.data`);
  on well-formed UTF-8 text the byte-wise prefix test of Go and the
  character-wise prefix test agree.
* Optional protobuf fields are Go pointers.  A pointer that is `nil` is `none`;
  an unconditional dereference `*p` of a `nil` pointer aborts the run, which the
  embedding renders as the result `none`.  The getters `GetName()`,
  `GetInputType()`, `GetOutputType()` return `""` on `nil`.
* `Type` is a keyword of Lean, so the Go struct field `Type` is written `Type_`.
* The enums `FieldDescriptorProto_Type` and `FieldDescriptorProto_Label` are
  `int32` in Go and are modelled by `Int`, so that values outside the named
  constants exist in the model as they do in the program.
* `log.Fatalf` ends the run before any response is written: a function that can reach
  it returns `Except.error`, and `main` returns `none`.
* The flag registry `flag.CommandLine` holds the two flags that `main.go` defines; its
  state is the pair of their values (`FlagSet`).
* The parsed template is a parameter: a function from the data handed to
  `tmpl.Execute` to the text it writes into the buffer.
* `filepath.Ext` is modelled with the Unix path separator `/`.
-/

set_option autoImplicit false

namespace ProtocGenGeneric

/-! ## Descriptor types (package `descriptor`) -/

/-- Values of the enum `FieldDescriptorProto.Type` as declared in `descriptor.proto`
(the constants are imported from package `descriptor`). -/
abbrev FieldDescriptorProto_TYPE_DOUBLE : Int := 1
abbrev FieldDescriptorProto_TYPE_FLOAT : Int := 2
abbrev FieldDescriptorProto_TYPE_INT64 : Int := 3
abbrev FieldDescriptorProto_TYPE_UINT64 : Int := 4
abbrev FieldDescriptorProto_TYPE_INT32 : Int := 5
abbrev FieldDescriptorProto_TYPE_FIXED64 : Int := 6
abbrev FieldDescriptorProto_TYPE_FIXED32 : Int := 7
abbrev FieldDescriptorProto_TYPE_BOOL : Int := 8
abbrev FieldDescriptorProto_TYPE_STRING : Int := 9
abbrev FieldDescriptorProto_TYPE_GROUP : Int := 10
abbrev FieldDescriptorProto_TYPE_MESSAGE : Int := 11
abbrev FieldDescriptorProto_TYPE_BYTES : Int := 12
abbrev FieldDescriptorProto_TYPE_UINT32 : Int := 13
abbrev FieldDescriptorProto_TYPE_ENUM : Int := 14
abbrev FieldDescriptorProto_TYPE_SFIXED32 : Int := 15
abbrev FieldDescriptorProto_TYPE_SFIXED64 : Int := 16
abbrev FieldDescriptorProto_TYPE_SINT32 : Int := 17
abbrev FieldDescriptorProto_TYPE_SINT64 : Int := 18

/-- Values of the enum `FieldDescriptorProto.Label` as declared in `descriptor.proto`. -/
abbrev FieldDescriptorProto_LABEL_OPTIONAL : Int := 1
abbrev FieldDescriptorProto_LABEL_REQUIRED : Int := 2
abbrev FieldDescriptorProto_LABEL_REPEATED : Int := 3

/-- The message `FieldDescriptorProto`: every attribute is an optional (pointer) field.
`Options` stands for the nested options message, kept as its serialized bytes. -/
structure FieldDescriptorProto where
  Name : Option String
  Extendee : Option String
  Number : Option Int
  Label : Option Int
  Type_ : Option Int
  TypeName : Option String
  DefaultValue : Option String
  OneofIndex : Option Int
  JsonName : Option String
  Options : Option (List Nat)
deriving DecidableEq, Repr

/-- The message `DescriptorProto`, restricted to the attributes the walker reads. -/
structure DescriptorProto where
  Name : Option String
  Field : List FieldDescriptorProto
deriving DecidableEq, Repr

/-- The message `MethodDescriptorProto`. -/
structure MethodDescriptorProto where
  Name : Option String
  InputType : Option String
  OutputType : Option String
deriving DecidableEq, Repr

/-- The message `ServiceDescriptorProto`. -/
structure ServiceDescriptorProto where
  Name : Option String
  Method : List MethodDescriptorProto
deriving DecidableEq, Repr

/-- The message `FileDescriptorProto`, restricted to the attributes `main` reads. -/
structure FileDescriptorProto where
  Name : Option String
  Package : Option String
  MessageType : List DescriptorProto
  Service : List ServiceDescriptorProto
deriving DecidableEq, Repr

/-- Generated getter: the value, or `""` when the pointer is `nil`. -/
def MethodDescriptorProto.GetName (m : MethodDescriptorProto) : String := m.Name.getD ""

/-- Generated getter: the value, or `""` when the pointer is `nil`. -/
def MethodDescriptorProto.GetInputType (m : MethodDescriptorProto) : String := m.InputType.getD ""

/-- Generated getter: the value, or `""` when the pointer is `nil`. -/
def MethodDescriptorProto.GetOutputType (m : MethodDescriptorProto) : String :=
  m.OutputType.getD ""

/-- Generated getter: the value, or `""` when the pointer is `nil`. -/
def ServiceDescriptorProto.GetName (s : ServiceDescriptorProto) : String := s.Name.getD ""

/-! ## Library functions of package `strings` -/

/-- Go `strings.HasPrefix`: `len(s) >= len(prefix) && s[0:len(prefix)] == prefix`. -/
def HasPrefix (s pre : String) : Bool :=
  decide (pre.data.length ≤ s.data.length) && decide (s.data.take pre.data.length = pre.data)

/-- Go `strings.TrimPrefix`: `s` without the leading `prefix` when `s` starts with it,
otherwise `s` itself. -/
def TrimPrefix (s pre : String) : String :=
  if HasPrefix s pre then String.mk (s.data.drop pre.data.length) else s

/-! ## The model types of `main.go` -/

structure Method where
  Name : String
  Input : String
  Output : String
deriving DecidableEq, Repr

structure Field where
  Comment : String
  Name : String
  Type_ : String
deriving DecidableEq, Repr

structure Message where
  Name : String
  Fields : List Field
deriving DecidableEq, Repr

/-- The type `Service` used by the service loop of `main` (`Name`, `Methods`). -/
structure Service where
  Name : String
  Methods : List Method
deriving DecidableEq, Repr

/-! ## `getFieldType` -/

/-- The `switch *field.Type` of `getFieldType`, starting from `ret := "any"`.  A Go `case`
with an empty body leaves `ret` alone and does not fall through.  The only dereference
inside the switch is `*field.TypeName`, in the `TYPE_MESSAGE` case. -/
def getFieldType.switch (field : FieldDescriptorProto) (pkg : String) (t : Int) :
    Option String :=
  let ret := "any"
  if t = FieldDescriptorProto_TYPE_DOUBLE ∨ t = FieldDescriptorProto_TYPE_FLOAT ∨
      t = FieldDescriptorProto_TYPE_INT32 ∨ t = FieldDescriptorProto_TYPE_FIXED32 ∨
      t = FieldDescriptorProto_TYPE_UINT32 ∨ t = FieldDescriptorProto_TYPE_SFIXED32 ∨
      t = FieldDescriptorProto_TYPE_SINT32 then
    some ret
  else if t = FieldDescriptorProto_TYPE_INT64 ∨ t = FieldDescriptorProto_TYPE_UINT64 ∨
      t = FieldDescriptorProto_TYPE_FIXED64 ∨ t = FieldDescriptorProto_TYPE_SFIXED64 ∨
      t = FieldDescriptorProto_TYPE_SINT64 then
    some "string"
  else if t = FieldDescriptorProto_TYPE_BOOL then
    some "boolean"
  else if t = FieldDescriptorProto_TYPE_STRING then
    some "string"
  else if t = FieldDescriptorProto_TYPE_GROUP then
    some ret
  else if t = FieldDescriptorProto_TYPE_MESSAGE then
    match field.TypeName with
    | none => none
    | some typeName => some (TrimPrefix typeName ("." ++ pkg ++ "."))
  else if t = FieldDescriptorProto_TYPE_BYTES then
    some ret
  else if t = FieldDescriptorProto_TYPE_ENUM then
    some "UNKNONWN TYPE"
  else
    some ret

/-- The function `getFieldType(field, pkg)`: dereference `*field.Type`, run the switch,
dereference `*field.Label`, append `"[]"` when the label is `LABEL_REPEATED`. -/
def getFieldType (field : FieldDescriptorProto) (pkg : String) : Option String :=
  match field.Type_ with
  | none => none
  | some t =>
    match getFieldType.switch field pkg t with
    | none => none
    | some ret =>
      match field.Label with
      | none => none
      | some l =>
        if l = FieldDescriptorProto_LABEL_REPEATED then some (ret ++ "[]") else some ret

/-- The wire types named by a `case` of the switch in `getFieldType`. -/
def caseTable : List Int :=
  [FieldDescriptorProto_TYPE_DOUBLE, FieldDescriptorProto_TYPE_FLOAT,
   FieldDescriptorProto_TYPE_INT32, FieldDescriptorProto_TYPE_FIXED32,
   FieldDescriptorProto_TYPE_UINT32, FieldDescriptorProto_TYPE_SFIXED32,
   FieldDescriptorProto_TYPE_SINT32,
   FieldDescriptorProto_TYPE_INT64, FieldDescriptorProto_TYPE_UINT64,
   FieldDescriptorProto_TYPE_FIXED64, FieldDescriptorProto_TYPE_SFIXED64,
   FieldDescriptorProto_TYPE_SINT64,
   FieldDescriptorProto_TYPE_BOOL, FieldDescriptorProto_TYPE_STRING,
   FieldDescriptorProto_TYPE_GROUP, FieldDescriptorProto_TYPE_MESSAGE,
   FieldDescriptorProto_TYPE_BYTES, FieldDescriptorProto_TYPE_ENUM]

/-- A field descriptor with only type, label and type name set. -/
def mkField (t : Int) (l : Int) (typeName : Option String) : FieldDescriptorProto :=
  { Name := none, Extendee := none, Number := none, Label := some l, Type_ := some t,
    TypeName := typeName, DefaultValue := none, OneofIndex := none, JsonName := none,
    Options := none }

/-! ## The walker loops of `main`

The element pointers of the repeated fields (`f.MessageType`, `msg.Field`, `f.Service`,
`svc.Method`) are taken to be non-`nil`, as they are in every unmarshalled request. -/

/-- The loop `for _, field := range msg.Field` of `main`, entered with `m.Fields = fields`.
Each round dereferences `*field.Name` and `*f.Package`, calls `getFieldType` and appends
one `Field` (its `Comment` is left at the zero value `""`). -/
def main_fieldLoop (pkg : Option String) :
    List FieldDescriptorProto → List Field → Option (List Field)
  | [], fields => some fields
  | field :: rest, fields =>
    match field.Name with
    | none => none
    | some name =>
      match pkg with
      | none => none
      | some p =>
        match getFieldType field p with
        | none => none
        | some t =>
          main_fieldLoop pkg rest (fields ++ [{ Comment := "", Name := name, Type_ := t }])

/-- The loop `for _, msg := range f.MessageType` of `main`, entered with the variable
`messages` holding the given list.  Each round dereferences `*msg.Name`, starts
`m.Fields` at `[]*Field{}`, runs the field loop and appends `m`. -/
def main_messageLoop (f : FileDescriptorProto) :
    List DescriptorProto → List Message → Option (List Message)
  | [], messages => some messages
  | msg :: rest, messages =>
    match msg.Name with
    | none => none
    | some name =>
      match main_fieldLoop f.Package msg.Field [] with
      | none => none
      | some fields => main_messageLoop f rest (messages ++ [{ Name := name, Fields := fields }])

/-- The value of `messages` after lines 125-140 of `main`: `messages = []*Message{}`
followed by the message loop. -/
def main_messages (f : FileDescriptorProto) : Option (List Message) :=
  main_messageLoop f f.MessageType []

/-- The loop `for _, mth := range svc.Method` of `main`, entered with `methods` holding the
given list: one `Method` is appended per round, built from the nil-safe getters. -/
def main_methodLoop : List MethodDescriptorProto → List Method → List Method
  | [], methods => methods
  | mth :: rest, methods =>
    main_methodLoop rest
      (methods ++ [{ Name := mth.GetName, Input := mth.GetInputType, Output := mth.GetOutputType }])

/-- The value bound to the local `service` in one round of the service loop:
`methods := []*Method{}`, the method loop, then `&Service{Name: svc.GetName(), Methods: methods}`. -/
def main_service (svc : ServiceDescriptorProto) : Service :=
  let methods := main_methodLoop svc.Method []
  { Name := svc.GetName, Methods := methods }

/-- The loop `for _, svc := range f.Service` of `main`, entered with `services` holding the
given list.  A round binds the local `service` and ends: the loop body holds no
`services = append(services, service)`, so `services` passes through unchanged. -/
def main_serviceLoop : List ServiceDescriptorProto → List Service → List Service
  | [], services => services
  | svc :: rest, services =>
    let _service := main_service svc
    main_serviceLoop rest services

/-- The value of `services` after lines 142-157 of `main`: `services := []*Service{}`
followed by the service loop. -/
def main_services (f : FileDescriptorProto) : List Service :=
  main_serviceLoop f.Service []

/-- A repeated `TYPE_MESSAGE` field `.pkgA.Item`, used as a concrete input. -/
def sampleRepeated : FieldDescriptorProto :=
  mkField FieldDescriptorProto_TYPE_MESSAGE FieldDescriptorProto_LABEL_REPEATED
    (some ".pkgA.Item")

/-- An optional `TYPE_ENUM` field `.pkgA.Color`, used as a concrete input. -/
def sampleEnum : FieldDescriptorProto :=
  mkField FieldDescriptorProto_TYPE_ENUM FieldDescriptorProto_LABEL_OPTIONAL
    (some ".pkgA.Color")

/-- A schema file with one message and one service, used as a concrete input. -/
def sampleFile : FileDescriptorProto :=
  { Name := some "a.proto", Package := some "pkgA",
    MessageType :=
      [{ Name := some "Req",
         Field := [{ mkField FieldDescriptorProto_TYPE_INT64 FieldDescriptorProto_LABEL_OPTIONAL
                       none with Name := some "id" },
                   { mkField FieldDescriptorProto_TYPE_MESSAGE FieldDescriptorProto_LABEL_REPEATED
                       (some ".pkgA.Item") with Name := some "items" }] }],
    Service :=
      [{ Name := some "Svc",
         Method := [{ Name := some "Get", InputType := some ".pkgA.Req",
                      OutputType := some ".pkgA.Item" }] }] }

/-! ## The plugin protocol types (package `plugin`) -/

/-- The message `CodeGeneratorRequest`, restricted to the attributes `main` reads. -/
structure CodeGeneratorRequest where
  FileToGenerate : List String
  Parameter : Option String
  ProtoFile : List FileDescriptorProto
deriving DecidableEq, Repr

/-- The message `CodeGeneratorResponse_File`; `proto.String(s)` is `some s`. -/
structure CodeGeneratorResponse_File where
  Name : Option String
  Content : Option String
deriving DecidableEq, Repr

/-- Generated getter: the value, or `""` when the pointer is `nil`. -/
def FileDescriptorProto.GetName (f : FileDescriptorProto) : String := f.Name.getD ""

/-! ## More library functions (`strings`, `path/filepath`, `flag`) -/

/-- One round of the loop of `strings.genSplit` for a one-character separator:
`m := Index(s, sep)`; when found, the piece `s[:m]` and the rest `s[m+1:]`. -/
def genSplit.cut (sep : Char) : List Char → Option (List Char × List Char)
  | [] => none
  | c :: cs =>
    if c = sep then some ([], cs)
    else
      match genSplit.cut sep cs with
      | none => none
      | some (piece, rest) => some (c :: piece, rest)

/-- The loop of `strings.genSplit` for a one-character separator, with `k` the number of
rounds left (`n - 1 - i`): a round cuts one piece off, the loop stops early when the
separator is not found, and what is left of `s` is the final piece. -/
def genSplit (sep : Char) : Nat → List Char → List (List Char)
  | 0, s => [s]
  | k + 1, s =>
    match genSplit.cut sep s with
    | none => [s]
    | some (piece, rest) => piece :: genSplit sep k rest

/-- Go `strings.Split(s, sep)` for a one-character separator: `genSplit` with
`n = Count(s, sep) + 1`. -/
def Split (s : String) (sep : Char) : List String :=
  (genSplit sep (s.data.count sep) s.data).map String.mk

/-- Go `strings.SplitN(s, sep, n)` for a one-character separator: `nil` for `n = 0`,
otherwise `genSplit` with `n` capped at `len(s) + 1`. -/
def SplitN (s : String) (sep : Char) (n : Nat) : List String :=
  if n = 0 then []
  else (genSplit sep (min n (s.data.length + 1) - 1) s.data).map String.mk

/-- Go `strings.HasSuffix`: `len(s) >= len(suffix) && s[len(s)-len(suffix):] == suffix`. -/
def HasSuffix (s suf : String) : Bool :=
  decide (suf.data.length ≤ s.data.length) &&
    decide (s.data.drop (s.data.length - suf.data.length) = suf.data)

/-- Go `strings.TrimSuffix`: `s[:len(s)-len(suffix)]` when `s` ends with `suffix`,
otherwise `s` itself. -/
def TrimSuffix (s suf : String) : String :=
  if HasSuffix s suf then String.mk (s.data.take (s.data.length - suf.data.length)) else s

/-- Go `strings.TrimLeft(s, cutset)`: `s` without its leading characters that occur in
`cutset`. -/
def TrimLeft (s cutset : String) : String :=
  String.mk (s.data.dropWhile (fun c => cutset.data.contains c))

/-- The loop of `filepath.Ext` (Unix path separator `/`):
`for i := len(path)-1; i >= 0 && path[i] != '/'; i-- { if path[i] == '.' { return path[i:] } }`.
The first argument is `path[:i+1]` reversed (its head is `path[i]`), the second is
`path[i+1:]`. -/
def Ext.loop : List Char → List Char → List Char
  | [], _ => []
  | c :: before, after =>
    if c = '/' then []
    else if c = '.' then c :: after
    else Ext.loop before (c :: after)

/-- Go `filepath.Ext(path)`. -/
def Ext (path : String) : String :=
  String.mk (Ext.loop path.data.reverse [])

/-- The two flags that `main.go` defines on `flag.CommandLine`: `*templatePath` and
`*fileExt`. -/
structure FlagSet where
  templatePath : String
  fileExt : String
deriving DecidableEq, Repr

/-- Go `flag.CommandLine.Set(name, value)`: an error when no flag of that name is defined,
otherwise the (string) flag takes the value. -/
def FlagSet.Set (fs : FlagSet) (name value : String) : Except String FlagSet :=
  if name = "template_path" then Except.ok { fs with templatePath := value }
  else if name = "file_ext" then Except.ok { fs with fileExt := value }
  else Except.error ("no such flag -" ++ name)

/-! ## `parseParameters` and `fileFromReq` -/

/-- The loop `for _, p := range strings.Split(req.GetParameter(), ",")` of
`parseParameters`.  `log.Fatalf` ends the run: it is the result `Except.error`. -/
def parseParameters.loop : List String → FlagSet → Except String FlagSet
  | [], fs => Except.ok fs
  | p :: rest, fs =>
    match SplitN p '=' 2 with
    | [] => Except.error "index out of range"
    | [name] =>
      match fs.Set name "" with
      | Except.error _ => Except.error ("Cannot set flag " ++ p)
      | Except.ok fs1 => parseParameters.loop rest fs1
    | name :: value :: _ =>
      match fs.Set name value with
      | Except.error _ => Except.error ("Cannot set flag " ++ p)
      | Except.ok fs1 => parseParameters.loop rest fs1

/-- The function `parseParameters(req)`, acting on the flag values: nothing happens when
`req.Parameter` is `nil`. -/
def parseParameters (req : CodeGeneratorRequest) (fs : FlagSet) : Except String FlagSet :=
  match req.Parameter with
  | none => Except.ok fs
  | some parameter => parseParameters.loop (Split parameter ',') fs

/-- The loop `for _, f := range req.ProtoFile` of `fileFromReq`. -/
def fileFromReq.loop (name : String) :
    List FileDescriptorProto → Except String FileDescriptorProto
  | [] => Except.error ("couldn't find file to generate: " ++ name)
  | f :: rest => if f.GetName = name then Except.ok f else fileFromReq.loop name rest

/-- The function `fileFromReq(req, name)`. -/
def fileFromReq (req : CodeGeneratorRequest) (name : String) :
    Except String FileDescriptorProto :=
  fileFromReq.loop name req.ProtoFile

/-! ## The generation loop of `main` -/

/-- The values that can be handed to `tmpl.Execute` as its `data` argument: the schema
file descriptor itself, or an intermediate model (package, messages, services). -/
inductive TemplateData where
  | descriptor (f : FileDescriptorProto)
  | model (package : String) (messages : List Message) (services : List Service)
deriving DecidableEq, Repr

/-- Lines 161-164 of `main`: `name := f.GetName()`, `ext := filepath.Ext(name)`,
`base := strings.TrimSuffix(name, ext)`, `output := fmt.Sprintf("%s.%s", base, *fileExt)`. -/
def main_outputName (f : FileDescriptorProto) (fileExt : String) : String :=
  let name := f.GetName
  let ext := Ext name
  let base := TrimSuffix name ext
  base ++ "." ++ fileExt

/-- The text in the buffer `code` after line 159 of `main`, `tmpl.Execute(code, f)`:
the template (the parameter `execute`) is run on the descriptor `f`. -/
def main_rendered (execute : TemplateData → String) (f : FileDescriptorProto) : String :=
  execute (TemplateData.descriptor f)

/-- The response entry appended on lines 166-169 of `main`. -/
def main_outputFile (execute : TemplateData → String) (fileExt : String)
    (f : FileDescriptorProto) : CodeGeneratorResponse_File :=
  { Name := some (main_outputName f fileExt),
    Content := some (TrimLeft (main_rendered execute f) "\n") }

/-- The loop `for _, name := range req.GetFileToGenerate()` of `main` (lines 118-170),
entered with the given `files`.  A round ends the run without a response (`none`) when
`fileFromReq` fails (`log.Fatalf`) or when the walker dereferences a `nil` pointer;
otherwise it builds `messages` and `services`, renders, and appends one entry. -/
def main_fileLoop (execute : TemplateData → String) (fileExt : String)
    (req : CodeGeneratorRequest) :
    List String → List CodeGeneratorResponse_File → Option (List CodeGeneratorResponse_File)
  | [], files => some files
  | name :: rest, files =>
    match fileFromReq req name with
    | Except.error _ => none
    | Except.ok f =>
      match main_messages f with
      | none => none
      | some _messages =>
        let _services := main_services f
        main_fileLoop execute fileExt req rest (files ++ [main_outputFile execute fileExt f])

/-- The file list handed to `emitFiles` on line 172 of `main`, given the parsed template
and the value of `*fileExt`. -/
def main_generate (execute : TemplateData → String) (fileExt : String)
    (req : CodeGeneratorRequest) : Option (List CodeGeneratorResponse_File) :=
  main_fileLoop execute fileExt req req.FileToGenerate []

/-- The function `main` from line 105 on: `parseParameters`, `template.ParseFiles` (the
parameter `ParseFiles`, `none` when the template cannot be loaded), the generation loop.
The result is the file list of the emitted response, `none` when the run ends before
`emitFiles`. -/
def main (ParseFiles : String → Option (TemplateData → String)) (fs : FlagSet)
    (req : CodeGeneratorRequest) : Option (List CodeGeneratorResponse_File) :=
  match parseParameters req fs with
  | Except.error _ => none
  | Except.ok fs1 =>
    match ParseFiles fs1.templatePath with
    | none => none
    | some tmpl => main_generate tmpl fs1.fileExt req

/-! ## The wording of the specification, for comparison with the code -/

/-- The name of a parameter token in the words of the specification: the text before its
first `=`, the whole token when it has none. -/
def specTokenName (tok : String) : String :=
  String.mk (tok.data.takeWhile (fun c => c ≠ '='))

/-- The value of a parameter token in the words of the specification: the text after its
first `=`, the empty string when it has none. -/
def specTokenValue (tok : String) : String :=
  String.mk ((tok.data.dropWhile (fun c => c ≠ '=')).drop 1)

/-- The parameter string made of the given tokens, in the words of the specification:
the tokens written one after the other with a `,` between neighbours.  A string with
`k` commas is made of `k + 1` comma-free tokens; the empty string is made of the one
token `""`. -/
def specJoin : List String → String
  | [] => ""
  | [tok] => tok
  | tok :: next :: rest => tok ++ "," ++ specJoin (next :: rest)

/-- The final value of option `o` in the words of the specification: the value of the last
token naming `o`, the previous value `old` when no token names it. -/
def specFinalValue (toks : List String) (o : String) (old : String) : String :=
  match (toks.filter (fun tok => specTokenName tok = o)).getLast? with
  | none => old
  | some tok => specTokenValue tok

/-- The option names the specification lists as recognized. -/
def specRecognized : List String := ["template_path", "file_ext"]

/-- The extension of a file name in the words of the specification: the suffix starting at
the last `.` of the final `/`-separated path element, empty if that element has no `.`. -/
def specExtension (name : String) : String :=
  let element := (name.data.reverse.takeWhile (fun c => c ≠ '/')).reverse
  if '.' ∈ element then
    String.mk ('.' :: (element.reverse.takeWhile (fun c => c ≠ '.')).reverse)
  else ""

/-! ## Concrete inputs -/

/-- A request for `a.proto` and `b.proto`, both supplied and without messages. -/
def sampleRequest : CodeGeneratorRequest :=
  { FileToGenerate := ["a.proto", "b.proto"],
    Parameter := some "template_path=/x/y,file_ext=go",
    ProtoFile :=
      [{ Name := some "b.proto", Package := some "pkgB", MessageType := [], Service := [] },
       { Name := some "a.proto", Package := some "pkgA", MessageType := [], Service := [] }] }

/-- The field `sampleRepeated` with other name, number, default value and options. -/
def sampleRepeatedOther : FieldDescriptorProto :=
  { sampleRepeated with
    Name := some "other", Number := some 7, DefaultValue := some "x", Options := some [8, 1] }

/-- A template that tells the two kinds of data apart. -/
def sampleExecute : TemplateData → String
  | TemplateData.descriptor _ => "\n\nraw"
  | TemplateData.model _ _ _ => "\n\nmodel"

/-! ## Facts about the library functions -/

theorem HasPrefix_iff (s pre : String) : HasPrefix s pre = true ↔ pre.data <+: s.data := by
  unfold HasPrefix
  rw [Bool.and_eq_true, decide_eq_true_iff, decide_eq_true_iff, List.prefix_iff_eq_take]
  constructor
  · rintro ⟨_, h⟩
    exact h.symm
  · intro h
    refine ⟨?_, h.symm⟩
    have := congrArg List.length h
    rw [List.length_take] at this
    omega

theorem TrimPrefix_append (pre n : String) : TrimPrefix (pre ++ n) pre = n := by
  have h : HasPrefix (pre ++ n) pre = true := by
    rw [HasPrefix_iff, String.data_append]
    exact List.prefix_append _ _
  unfold TrimPrefix
  rw [if_pos h]
  simp [String.data_append]

theorem TrimPrefix_of_not_HasPrefix (s pre : String) (h : HasPrefix s pre = false) :
    TrimPrefix s pre = s := by
  unfold TrimPrefix
  simp [h]

/-! ## Facts about `getFieldType` -/

/-- The result of `getFieldType` once type and label are known to be present. -/
theorem getFieldType_of_present (f : FieldDescriptorProto) (pkg : String) (t l : Int)
    (hT : f.Type_ = some t) (hL : f.Label = some l) :
    getFieldType f pkg =
      (getFieldType.switch f pkg t).map
        (fun ret => if l = FieldDescriptorProto_LABEL_REPEATED then ret ++ "[]" else ret) := by
  simp only [getFieldType, hT, hL]
  cases getFieldType.switch f pkg t with
  | none => rfl
  | some ret => by_cases h : l = FieldDescriptorProto_LABEL_REPEATED <;> simp [h]

/-- The switch reads no attribute of the field other than `TypeName`. -/
theorem switch_congr (f g : FieldDescriptorProto) (pkg : String) (t : Int)
    (h : f.TypeName = g.TypeName) :
    getFieldType.switch f pkg t = getFieldType.switch g pkg t := by
  unfold getFieldType.switch
  rw [h]


/-- The switch on a wire type of the first `case` list yields `"any"`. -/
theorem switch_numeric32 (f : FieldDescriptorProto) (pkg : String) (t : Int)
    (ht : t ∈ [FieldDescriptorProto_TYPE_DOUBLE, FieldDescriptorProto_TYPE_FLOAT,
      FieldDescriptorProto_TYPE_INT32, FieldDescriptorProto_TYPE_FIXED32,
      FieldDescriptorProto_TYPE_UINT32, FieldDescriptorProto_TYPE_SFIXED32,
      FieldDescriptorProto_TYPE_SINT32]) :
    getFieldType.switch f pkg t = some "any" := by
  simp only [List.mem_cons, List.mem_singleton, List.not_mem_nil, or_false] at ht
  rcases ht with h | h | h | h | h | h | h <;> subst h <;> simp [getFieldType.switch]

/-- The switch on a wire type of the second `case` list yields `"string"`. -/
theorem switch_numeric64 (f : FieldDescriptorProto) (pkg : String) (t : Int)
    (ht : t ∈ [FieldDescriptorProto_TYPE_INT64, FieldDescriptorProto_TYPE_UINT64,
      FieldDescriptorProto_TYPE_FIXED64, FieldDescriptorProto_TYPE_SFIXED64,
      FieldDescriptorProto_TYPE_SINT64]) :
    getFieldType.switch f pkg t = some "string" := by
  simp only [List.mem_cons, List.mem_singleton, List.not_mem_nil, or_false] at ht
  rcases ht with h | h | h | h | h <;> subst h <;> simp [getFieldType.switch]

/-- The switch in the `TYPE_MESSAGE` case. -/
theorem switch_message (f : FieldDescriptorProto) (pkg typeName : String)
    (hN : f.TypeName = some typeName) :
    getFieldType.switch f pkg FieldDescriptorProto_TYPE_MESSAGE =
      some (TrimPrefix typeName ("." ++ pkg ++ ".")) := by
  simp [getFieldType.switch, hN]

/-- The switch on `TYPE_GROUP`, `TYPE_BYTES` or a value no `case` names yields `"any"`. -/
theorem switch_unmapped (f : FieldDescriptorProto) (pkg : String) (t : Int)
    (ht : t = FieldDescriptorProto_TYPE_GROUP ∨ t = FieldDescriptorProto_TYPE_BYTES ∨
      t ∉ caseTable) :
    getFieldType.switch f pkg t = some "any" := by
  rcases ht with h | h | h
  · subst h; simp [getFieldType.switch]
  · subst h; simp [getFieldType.switch]
  · simp only [caseTable, List.mem_cons, List.mem_singleton, List.not_mem_nil, or_false,
      not_or] at h
    obtain ⟨h1, h2, h3, h4, h5, h6, h7, h8, h9, h10, h11, h12, h13, h14, h15, h16, h17, h18⟩ := h
    simp [getFieldType.switch, h1, h2, h3, h4, h5, h6, h7, h8, h9, h10, h11, h12, h13, h14,
      h15, h16, h17, h18]

/-- Two lists that are prefixes of the same list and have the same length are equal. -/
theorem eq_of_prefix_of_length_eq {α : Type} {a b c : List α} (ha : a <+: c) (hb : b <+: c)
    (hlen : a.length = b.length) : a = b := by
  have h1 : a <+: b := List.prefix_of_prefix_length_le ha hb (le_of_eq hlen)
  exact h1.eq_of_length hlen

/-- When two different packages are not dotted extensions of one another, the prefix
`"." ++ p ++ "."` does not start the name `"." ++ q ++ "." ++ n`. -/
theorem not_HasPrefix_of_unrelated (p q n : String) (hne : q ≠ p)
    (hpq : HasPrefix q (p ++ ".") = false) (hqp : HasPrefix p (q ++ ".") = false) :
    HasPrefix ("." ++ q ++ "." ++ n) ("." ++ p ++ ".") = false := by
  rw [Bool.eq_false_iff, Ne, HasPrefix_iff] at hpq hqp ⊢
  intro h
  simp only [String.data_append] at h hpq hqp
  simp only [List.singleton_append, List.cons_append, List.append_assoc] at h
  have h2 : p.data ++ ['.'] <+: q.data ++ '.' :: n.data := by
    rcases h with ⟨r, hr⟩
    refine ⟨r, ?_⟩
    simpa using hr
  have hq1 : q.data ++ ['.'] <+: q.data ++ '.' :: n.data := by
    refine ⟨n.data, ?_⟩
    simp
  have hq0 : q.data <+: q.data ++ '.' :: n.data := List.prefix_append _ _
  have hp0 : p.data <+: q.data ++ '.' :: n.data :=
    (List.prefix_append p.data ['.']).trans h2
  rcases Nat.lt_trichotomy p.data.length q.data.length with hlt | heq | hgt
  · exact hpq (List.prefix_of_prefix_length_le h2 hq0 (by simp only [List.length_append, List.length_singleton]; omega))
  · have : p.data = q.data := eq_of_prefix_of_length_eq hp0 hq0 heq
    exact hne (String.ext this.symm)
  · exact hqp (List.prefix_of_prefix_length_le hq1 hp0 (by simp only [List.length_append, List.length_singleton]; omega))

/-! ## The claims about `getFieldType` -/

/-- C1: a non-repeated `TYPE_MESSAGE` field whose type name is `"." ++ p ++ "." ++ n`,
mapped in the enclosing package `p`, gets exactly the bare name `n`. -/
theorem C1_message_in_own_package (f : FieldDescriptorProto) (p n : String) (l : Int)
    (hT : f.Type_ = some FieldDescriptorProto_TYPE_MESSAGE)
    (hL : f.Label = some l) (hl : l ≠ FieldDescriptorProto_LABEL_REPEATED)
    (hN : f.TypeName = some ("." ++ p ++ "." ++ n)) :
    getFieldType f p = some n := by
  rw [getFieldType_of_present f p _ l hT hL, switch_message f p _ hN, TrimPrefix_append]
  simp [hl]

/-- C1 at `.pkgA.Foo` in package `pkgA`: the mapped type is `Foo`. -/
theorem C1_message_in_own_package_witness :
    getFieldType (mkField FieldDescriptorProto_TYPE_MESSAGE FieldDescriptorProto_LABEL_OPTIONAL
      (some ("." ++ "pkgA" ++ "." ++ "Foo"))) "pkgA" = some "Foo" :=
  C1_message_in_own_package _ "pkgA" "Foo" FieldDescriptorProto_LABEL_OPTIONAL rfl rfl
    (by decide) rfl

/-- C2 as stated fails, in two ways.  With enclosing package `a` and the different
package `a.b`, the name `.a.b.Foo` starts with `.a.` and is cut down to `b.Foo`.  With
enclosing package `a.b`, the different package `a` and the type name `b.Foo`, the name
`.a.b.Foo` starts with `.a.b.` and is cut down to `Foo`. -/
theorem C2_counterexample :
    (("a.b" : String) ≠ "a" ∧
      getFieldType (mkField FieldDescriptorProto_TYPE_MESSAGE
        FieldDescriptorProto_LABEL_OPTIONAL (some ("." ++ "a.b" ++ "." ++ "Foo"))) "a" =
          some "b.Foo" ∧
      getFieldType (mkField FieldDescriptorProto_TYPE_MESSAGE
        FieldDescriptorProto_LABEL_OPTIONAL (some ("." ++ "a.b" ++ "." ++ "Foo"))) "a" ≠
          some ("." ++ "a.b" ++ "." ++ "Foo")) ∧
    (("a" : String) ≠ "a.b" ∧
      getFieldType (mkField FieldDescriptorProto_TYPE_MESSAGE
        FieldDescriptorProto_LABEL_OPTIONAL (some ("." ++ "a" ++ "." ++ "b.Foo"))) "a.b" =
          some "Foo" ∧
      getFieldType (mkField FieldDescriptorProto_TYPE_MESSAGE
        FieldDescriptorProto_LABEL_OPTIONAL (some ("." ++ "a" ++ "." ++ "b.Foo"))) "a.b" ≠
          some ("." ++ "a" ++ "." ++ "b.Foo")) := by
  decide

/-- C2 amended: for an enclosing package `p`, a package `q` and a type name `n`, a
non-repeated `TYPE_MESSAGE` field whose type name is `"." ++ q ++ "." ++ n` keeps that
full name unchanged if and only if the name does not start with `"." ++ p ++ "."`.  So
every case the amendment leaves out is one where the name is in fact cut down. -/
theorem C2_message_unchanged_iff_not_prefixed (f : FieldDescriptorProto) (p q n : String)
    (l : Int)
    (hT : f.Type_ = some FieldDescriptorProto_TYPE_MESSAGE)
    (hL : f.Label = some l) (hl : l ≠ FieldDescriptorProto_LABEL_REPEATED)
    (hN : f.TypeName = some ("." ++ q ++ "." ++ n)) :
    getFieldType f p = some ("." ++ q ++ "." ++ n) ↔
      HasPrefix ("." ++ q ++ "." ++ n) ("." ++ p ++ ".") = false := by
  have hres : getFieldType f p =
      some (TrimPrefix ("." ++ q ++ "." ++ n) ("." ++ p ++ ".")) := by
    rw [getFieldType_of_present f p _ l hT hL, switch_message f p _ hN]
    simp [hl]
  rw [hres]
  constructor
  · intro h
    by_contra hpre
    rw [Bool.not_eq_false] at hpre
    have hcut : TrimPrefix ("." ++ q ++ "." ++ n) ("." ++ p ++ ".") =
        String.mk (("." ++ q ++ "." ++ n).data.drop ("." ++ p ++ ".").data.length) := by
      unfold TrimPrefix
      rw [if_pos hpre]
    rw [hcut] at h
    have hlen := congrArg (fun o : Option String => (o.map (fun x => x.data.length))) h
    simp only [Option.map_some', Option.some.injEq, List.length_drop, String.data_append,
      List.length_append] at hlen
    have h1 : (['.'] : List Char).length = 1 := rfl
    omega
  · intro h
    rw [TrimPrefix_of_not_HasPrefix _ _ h]

/-- C2 amended, at `.a.Foo` in package `a.b`: the name does not start with `.a.b.` and is
kept whole. -/
theorem C2_message_unchanged_iff_not_prefixed_witness :
    getFieldType (mkField FieldDescriptorProto_TYPE_MESSAGE FieldDescriptorProto_LABEL_OPTIONAL
      (some ("." ++ "a" ++ "." ++ "Foo"))) "a.b" = some ("." ++ "a" ++ "." ++ "Foo") :=
  (C2_message_unchanged_iff_not_prefixed _ "a.b" "a" "Foo" FieldDescriptorProto_LABEL_OPTIONAL
    rfl rfl (by decide) rfl).2 (by decide)

/-- A sufficient condition on the packages alone: when `q` is different from `p` and
neither is a dotted extension of the other, the full name is kept for every `n`. -/
theorem getFieldType_of_unrelated_packages (f : FieldDescriptorProto) (p q n : String)
    (l : Int)
    (hT : f.Type_ = some FieldDescriptorProto_TYPE_MESSAGE)
    (hL : f.Label = some l) (hl : l ≠ FieldDescriptorProto_LABEL_REPEATED)
    (hN : f.TypeName = some ("." ++ q ++ "." ++ n))
    (hne : q ≠ p) (hpq : HasPrefix q (p ++ ".") = false)
    (hqp : HasPrefix p (q ++ ".") = false) :
    getFieldType f p = some ("." ++ q ++ "." ++ n) := by
  rw [getFieldType_of_present f p _ l hT hL, switch_message f p _ hN,
    TrimPrefix_of_not_HasPrefix _ _ (not_HasPrefix_of_unrelated p q n hne hpq hqp)]
  simp [hl]

/-- C3: for a field whose label is `LABEL_REPEATED`, of any wire type, the mapped type is
the mapped type of the same field with a non-repeated label followed by `"[]"`, appended
once; and when the type (and, for `TYPE_MESSAGE`, the type name) is present both
results exist. -/
theorem C3_repeated_appends_array_marker (f : FieldDescriptorProto) (p : String) (l : Int)
    (hrep : f.Label = some FieldDescriptorProto_LABEL_REPEATED)
    (hl : l ≠ FieldDescriptorProto_LABEL_REPEATED) :
    getFieldType f p =
        (getFieldType { f with Label := some l } p).map (fun base => base ++ "[]") ∧
    (∀ t, f.Type_ = some t →
      (t = FieldDescriptorProto_TYPE_MESSAGE → f.TypeName ≠ none) →
      ∃ base, getFieldType { f with Label := some l } p = some base ∧
        getFieldType f p = some (base ++ "[]")) := by
  have key : ∀ t, f.Type_ = some t →
      getFieldType f p = (getFieldType.switch f p t).map (fun base => base ++ "[]") ∧
      getFieldType { f with Label := some l } p = getFieldType.switch f p t := by
    intro t hT
    constructor
    · rw [getFieldType_of_present f p t _ hT hrep]
      simp
    · rw [getFieldType_of_present { f with Label := some l } p t l hT rfl,
        switch_congr { f with Label := some l } f p t rfl]
      simp [hl]
  constructor
  · rcases Option.eq_none_or_eq_some f.Type_ with hT | ⟨t, hT⟩
    · simp [getFieldType, hT]
    · obtain ⟨h1, h2⟩ := key t hT
      rw [h1, h2]
  · intro t hT hN
    obtain ⟨h1, h2⟩ := key t hT
    have hsome : ∃ base, getFieldType.switch f p t = some base := by
      by_cases hm : t = FieldDescriptorProto_TYPE_MESSAGE
      · subst hm
        cases hn : f.TypeName with
        | none => exact absurd hn (hN rfl)
        | some typeName => exact ⟨_, switch_message f p typeName hn⟩
      · unfold getFieldType.switch
        simp only [hm, if_false]
        repeat (first | exact ⟨_, rfl⟩ | split)
    obtain ⟨base, hb⟩ := hsome
    exact ⟨base, by rw [h2, hb], by rw [h1, hb]; rfl⟩

/-- C3 at the repeated `TYPE_MESSAGE` field `.pkgA.Item` in package `pkgA`. -/
theorem C3_repeated_appends_array_marker_witness :
    getFieldType sampleRepeated "pkgA" =
        (getFieldType { sampleRepeated with Label := some FieldDescriptorProto_LABEL_OPTIONAL }
          "pkgA").map (fun base => base ++ "[]") ∧
    (∀ t, sampleRepeated.Type_ = some t →
      (t = FieldDescriptorProto_TYPE_MESSAGE → sampleRepeated.TypeName ≠ none) →
      ∃ base, getFieldType
          { sampleRepeated with Label := some FieldDescriptorProto_LABEL_OPTIONAL } "pkgA" =
            some base ∧
        getFieldType sampleRepeated "pkgA" = some (base ++ "[]")) :=
  C3_repeated_appends_array_marker sampleRepeated "pkgA" FieldDescriptorProto_LABEL_OPTIONAL rfl
    (by decide)

/-- C4: a non-repeated field whose wire type is one of `INT64`, `UINT64`, `FIXED64`,
`SFIXED64`, `SINT64` is mapped to `"string"`, never to the placeholder `"any"`, whatever
the package and the other attributes of the field. -/
theorem C4_numeric64_is_string (f : FieldDescriptorProto) (p : String) (t l : Int)
    (hT : f.Type_ = some t)
    (ht : t ∈ [FieldDescriptorProto_TYPE_INT64, FieldDescriptorProto_TYPE_UINT64,
      FieldDescriptorProto_TYPE_FIXED64, FieldDescriptorProto_TYPE_SFIXED64,
      FieldDescriptorProto_TYPE_SINT64])
    (hL : f.Label = some l) (hl : l ≠ FieldDescriptorProto_LABEL_REPEATED) :
    getFieldType f p = some "string" ∧ getFieldType f p ≠ some "any" := by
  have h : getFieldType f p = some "string" := by
    rw [getFieldType_of_present f p t l hT hL, switch_numeric64 f p t ht]
    simp [hl]
  exact ⟨h, by rw [h]; decide⟩

/-- C4 at a required `SINT64` field. -/
theorem C4_numeric64_is_string_witness :
    getFieldType (mkField FieldDescriptorProto_TYPE_SINT64 FieldDescriptorProto_LABEL_REQUIRED
        (some ".pkgA.Foo")) "pkgA" = some "string" ∧
    getFieldType (mkField FieldDescriptorProto_TYPE_SINT64 FieldDescriptorProto_LABEL_REQUIRED
        (some ".pkgA.Foo")) "pkgA" ≠ some "any" :=
  C4_numeric64_is_string _ "pkgA" FieldDescriptorProto_TYPE_SINT64
    FieldDescriptorProto_LABEL_REQUIRED rfl (by decide) rfl (by decide)

/-- C5: two fields with the same (present) label whose wire types are both among `DOUBLE`,
`FLOAT`, `INT32`, `FIXED32`, `UINT32`, `SFIXED32`, `SINT32` get one and the same mapped
type, for any two packages and any type names; it is `"any"` when the label is not
`LABEL_REPEATED`. -/
theorem C5_numeric32_is_uniform (f g : FieldDescriptorProto) (p q : String) (t u l : Int)
    (hTf : f.Type_ = some t) (hTg : g.Type_ = some u)
    (ht : t ∈ [FieldDescriptorProto_TYPE_DOUBLE, FieldDescriptorProto_TYPE_FLOAT,
      FieldDescriptorProto_TYPE_INT32, FieldDescriptorProto_TYPE_FIXED32,
      FieldDescriptorProto_TYPE_UINT32, FieldDescriptorProto_TYPE_SFIXED32,
      FieldDescriptorProto_TYPE_SINT32])
    (hu : u ∈ [FieldDescriptorProto_TYPE_DOUBLE, FieldDescriptorProto_TYPE_FLOAT,
      FieldDescriptorProto_TYPE_INT32, FieldDescriptorProto_TYPE_FIXED32,
      FieldDescriptorProto_TYPE_UINT32, FieldDescriptorProto_TYPE_SFIXED32,
      FieldDescriptorProto_TYPE_SINT32])
    (hLf : f.Label = some l) (hLg : g.Label = some l) :
    ∃ r, getFieldType f p = some r ∧ getFieldType g q = some r ∧
      (l ≠ FieldDescriptorProto_LABEL_REPEATED → r = "any") := by
  refine ⟨if l = FieldDescriptorProto_LABEL_REPEATED then "any" ++ "[]" else "any", ?_, ?_, ?_⟩
  · rw [getFieldType_of_present f p t l hTf hLf, switch_numeric32 f p t ht]
    rfl
  · rw [getFieldType_of_present g q u l hTg hLg, switch_numeric32 g q u hu]
    rfl
  · intro hl
    simp [hl]

/-- C5 at a `DOUBLE` field in package `pkgA` and a `SINT32` field in package `other`. -/
theorem C5_numeric32_is_uniform_witness :
    ∃ r, getFieldType (mkField FieldDescriptorProto_TYPE_DOUBLE
          FieldDescriptorProto_LABEL_OPTIONAL (some ".pkgA.Foo")) "pkgA" = some r ∧
      getFieldType (mkField FieldDescriptorProto_TYPE_SINT32
          FieldDescriptorProto_LABEL_OPTIONAL none) "other" = some r ∧
      (FieldDescriptorProto_LABEL_OPTIONAL ≠ FieldDescriptorProto_LABEL_REPEATED → r = "any") :=
  C5_numeric32_is_uniform _ _ "pkgA" "other" FieldDescriptorProto_TYPE_DOUBLE
    FieldDescriptorProto_TYPE_SINT32 FieldDescriptorProto_LABEL_OPTIONAL rfl rfl
    (by decide) (by decide) rfl rfl

/-- C6: a non-repeated field with type and label present whose wire type is `GROUP`,
`BYTES` or a value that no `case` of the switch names is mapped to `"any"`: the call
returns for every package and every type name (present or absent). -/
theorem C6_unmapped_is_any (f : FieldDescriptorProto) (p : String) (t l : Int)
    (hT : f.Type_ = some t)
    (ht : t = FieldDescriptorProto_TYPE_GROUP ∨ t = FieldDescriptorProto_TYPE_BYTES ∨
      t ∉ caseTable)
    (hL : f.Label = some l) (hl : l ≠ FieldDescriptorProto_LABEL_REPEATED) :
    getFieldType f p = some "any" := by
  rw [getFieldType_of_present f p t l hT hL, switch_unmapped f p t ht]
  simp [hl]

/-- C6 at the wire type value `99`, which no `case` names. -/
theorem C6_unmapped_is_any_witness :
    getFieldType (mkField 99 FieldDescriptorProto_LABEL_OPTIONAL none) "pkgA" = some "any" :=
  C6_unmapped_is_any _ "pkgA" 99 FieldDescriptorProto_LABEL_OPTIONAL rfl
    (Or.inr (Or.inr (by decide))) rfl (by decide)

/-- C7: a non-repeated `TYPE_ENUM` field is mapped to the fixed string `"UNKNONWN TYPE"`
for every package and every type name, and a qualified type name (one with a leading
`"."`) does not occur in that result. -/
theorem C7_enum_is_fixed_placeholder (f : FieldDescriptorProto) (p : String) (l : Int)
    (hT : f.Type_ = some FieldDescriptorProto_TYPE_ENUM)
    (hL : f.Label = some l) (hl : l ≠ FieldDescriptorProto_LABEL_REPEATED) :
    getFieldType f p = some "UNKNONWN TYPE" ∧
    ∀ r rest, getFieldType f p = some r → f.TypeName = some ("." ++ rest) →
      ¬ ("." ++ rest).data <:+: r.data := by
  have h : getFieldType f p = some "UNKNONWN TYPE" := by
    rw [getFieldType_of_present f p _ l hT hL]
    simp [getFieldType.switch, hl]
  refine ⟨h, ?_⟩
  intro r rest hr _ hin
  rw [h] at hr
  cases hr
  have hmem : '.' ∈ ("UNKNONWN TYPE" : String).data := by
    apply hin.subset
    simp [String.data_append]
  revert hmem
  decide

/-- C7 at the optional enum field `.pkgA.Color` in package `pkgA`. -/
theorem C7_enum_is_fixed_placeholder_witness :
    getFieldType sampleEnum "pkgA" = some "UNKNONWN TYPE" ∧
    ∀ r rest, getFieldType sampleEnum "pkgA" = some r →
      sampleEnum.TypeName = some ("." ++ rest) → ¬ ("." ++ rest).data <:+: r.data :=
  C7_enum_is_fixed_placeholder sampleEnum "pkgA" FieldDescriptorProto_LABEL_OPTIONAL rfl rfl
    (by decide)

/-- C8: a non-repeated field is mapped to `"boolean"` when its wire type is `BOOL` and to
`"string"` when its wire type is `STRING`, for every package and type name. -/
theorem C8_bool_and_string (f : FieldDescriptorProto) (p : String) (l : Int)
    (hL : f.Label = some l) (hl : l ≠ FieldDescriptorProto_LABEL_REPEATED) :
    (f.Type_ = some FieldDescriptorProto_TYPE_BOOL → getFieldType f p = some "boolean") ∧
    (f.Type_ = some FieldDescriptorProto_TYPE_STRING → getFieldType f p = some "string") := by
  constructor
  · intro hT
    rw [getFieldType_of_present f p _ l hT hL]
    simp [getFieldType.switch, hl]
  · intro hT
    rw [getFieldType_of_present f p _ l hT hL]
    simp [getFieldType.switch, hl]

/-- C8 at an optional `BOOL` field and an optional `STRING` field. -/
theorem C8_bool_and_string_witness :
    getFieldType (mkField FieldDescriptorProto_TYPE_BOOL FieldDescriptorProto_LABEL_OPTIONAL
        none) "pkgA" = some "boolean" ∧
    getFieldType (mkField FieldDescriptorProto_TYPE_STRING FieldDescriptorProto_LABEL_OPTIONAL
        none) "pkgA" = some "string" :=
  ⟨(C8_bool_and_string _ "pkgA" FieldDescriptorProto_LABEL_OPTIONAL rfl (by decide)).1 rfl,
   (C8_bool_and_string _ "pkgA" FieldDescriptorProto_LABEL_OPTIONAL rfl (by decide)).2 rfl⟩

/-! ## The walker loops -/

/-- The field loop returns `out` exactly when `out` is the entry value of `m.Fields`
followed by one `Field` per schema field, position by position. -/
theorem main_fieldLoop_iff (pkg : Option String) (fs : List FieldDescriptorProto)
    (acc out : List Field) :
    main_fieldLoop pkg fs acc = some out ↔
      ∃ tail, out = acc ++ tail ∧
        List.Forall₂ (fun field fd => fd.Comment = "" ∧ field.Name = some fd.Name ∧
          ∃ p, pkg = some p ∧ getFieldType field p = some fd.Type_) fs tail := by
  induction fs generalizing acc with
  | nil =>
    simp only [main_fieldLoop, Option.some.injEq, List.forall₂_nil_left_iff]
    constructor
    · rintro rfl
      exact ⟨[], by simp, rfl⟩
    · rintro ⟨tail, rfl, rfl⟩
      simp
  | cons field rest ih =>
    simp only [main_fieldLoop, List.forall₂_cons_left_iff]
    constructor
    · intro h
      rcases hn : field.Name with _ | name
      · simp [hn] at h
      rcases pkg with _ | p
      · simp [hn] at h
      rcases hg : getFieldType field p with _ | t
      · simp [hn, hg] at h
      simp only [hn, hg] at h
      obtain ⟨tail, rfl, htail⟩ := (ih _).1 h
      exact ⟨{ Comment := "", Name := name, Type_ := t } :: tail, by simp, _, tail,
        ⟨rfl, rfl, p, rfl, hg⟩, htail, rfl⟩
    · rintro ⟨tail, rfl, fd, tail2, ⟨hc, hn, p, hp, hg⟩, htail, rfl⟩
      obtain ⟨c, n, t⟩ := fd
      simp only at hc hn hg
      subst hc
      subst hp
      simp only [hn, hg]
      exact (ih _).2 ⟨tail2, by simp, htail⟩

/-- The message loop returns `out` exactly when `out` is the entry value of `messages`
followed by one `Message` per schema message, position by position. -/
theorem main_messageLoop_iff (f : FileDescriptorProto) (msgs : List DescriptorProto)
    (acc out : List Message) :
    main_messageLoop f msgs acc = some out ↔
      ∃ tail, out = acc ++ tail ∧
        List.Forall₂ (fun msg m => msg.Name = some m.Name ∧
          List.Forall₂ (fun field fd => fd.Comment = "" ∧ field.Name = some fd.Name ∧
            ∃ p, f.Package = some p ∧ getFieldType field p = some fd.Type_)
            msg.Field m.Fields) msgs tail := by
  induction msgs generalizing acc with
  | nil =>
    simp only [main_messageLoop, Option.some.injEq, List.forall₂_nil_left_iff]
    constructor
    · rintro rfl
      exact ⟨[], by simp, rfl⟩
    · rintro ⟨tail, rfl, rfl⟩
      simp
  | cons msg rest ih =>
    simp only [main_messageLoop, List.forall₂_cons_left_iff]
    constructor
    · intro h
      rcases hn : msg.Name with _ | name
      · simp [hn] at h
      rcases hf : main_fieldLoop f.Package msg.Field [] with _ | fields
      · simp [hn, hf] at h
      simp only [hn, hf] at h
      obtain ⟨tail, rfl, htail⟩ := (ih _).1 h
      obtain ⟨ftail, hfe, hft⟩ := (main_fieldLoop_iff _ _ _ _).1 hf
      simp only [List.nil_append] at hfe
      subst hfe
      exact ⟨{ Name := name, Fields := fields } :: tail, by simp, _, tail, ⟨rfl, hft⟩, htail, rfl⟩
    · rintro ⟨tail, rfl, m, tail2, ⟨hn, hfs⟩, htail, rfl⟩
      have hf : main_fieldLoop f.Package msg.Field [] = some m.Fields :=
        (main_fieldLoop_iff _ _ _ _).2 ⟨m.Fields, by simp, hfs⟩
      simp only [hn, hf]
      exact (ih _).2 ⟨tail2, by simp, htail⟩

/-- The method loop appends one `Method` per schema method, in order. -/
theorem main_methodLoop_eq (mths : List MethodDescriptorProto) (acc : List Method) :
    main_methodLoop mths acc =
      acc ++ mths.map (fun mth =>
        { Name := mth.GetName, Input := mth.GetInputType, Output := mth.GetOutputType }) := by
  induction mths generalizing acc with
  | nil => simp [main_methodLoop]
  | cons mth rest ih => simp [main_methodLoop, ih]

/-- The service loop leaves `services` as it found it. -/
theorem main_serviceLoop_eq (svcs : List ServiceDescriptorProto) (acc : List Service) :
    main_serviceLoop svcs acc = acc := by
  induction svcs generalizing acc with
  | nil => rfl
  | cons svc rest ih => simp [main_serviceLoop, ih]

/-- C9: the message model is built exactly when it pairs off, position by position and
in declaration order, with the schema messages: the i-th `Message` carries the i-th
schema message's name, and its `Fields` pair off with that message's schema fields, the
j-th `Field` carrying the j-th field's name and the type `getFieldType(field, package)`
(so the lists have equal lengths: nothing is reordered, dropped or duplicated). -/
theorem C9_messages_follow_schema (f : FileDescriptorProto) (ms : List Message) :
    main_messages f = some ms ↔
      List.Forall₂ (fun msg m => msg.Name = some m.Name ∧
        List.Forall₂ (fun field fd => fd.Comment = "" ∧ field.Name = some fd.Name ∧
          ∃ p, f.Package = some p ∧ getFieldType field p = some fd.Type_)
          msg.Field m.Fields) f.MessageType ms := by
  unfold main_messages
  rw [main_messageLoop_iff]
  constructor
  · rintro ⟨tail, rfl, h⟩
    simpa using h
  · intro h
    exact ⟨ms, by simp, h⟩

/-- C10, the code at a schema file with one service: the loop builds the `Service` value
(name and methods with the raw input and output type names) and drops it, so `services`
stays empty. -/
theorem C10_services_stay_empty :
    sampleFile.Service.length = 1 ∧
    sampleFile.Service.map main_service =
      [{ Name := "Svc",
         Methods := [{ Name := "Get", Input := ".pkgA.Req", Output := ".pkgA.Item" }] }] ∧
    main_services sampleFile = [] := by
  decide

/-! ## `fileFromReq` -/

/-- The lookup loop returns `f` exactly when `f` is the first file of the list whose name
equals `name`. -/
theorem fileFromReq_loop_ok_iff (name : String) (l : List FileDescriptorProto)
    (f : FileDescriptorProto) :
    fileFromReq.loop name l = Except.ok f ↔
      ∃ pre post, l = pre ++ f :: post ∧ f.GetName = name ∧ ∀ g ∈ pre, g.GetName ≠ name := by
  induction l with
  | nil => simp [fileFromReq.loop]
  | cons g rest ih =>
    unfold fileFromReq.loop
    by_cases hg : g.GetName = name
    · rw [if_pos hg]
      constructor
      · intro h
        cases h
        exact ⟨[], rest, rfl, hg, by simp⟩
      · rintro ⟨pre, post, hl, _, hpre⟩
        cases pre with
        | nil =>
          simp only [List.nil_append, List.cons.injEq] at hl
          rw [hl.1]
        | cons a pre1 =>
          simp only [List.cons_append, List.cons.injEq] at hl
          exact absurd hg (hl.1 ▸ hpre a (List.mem_cons_self _ _))
    · rw [if_neg hg, ih]
      constructor
      · rintro ⟨pre, post, hl, hf, hpre⟩
        refine ⟨g :: pre, post, by rw [hl]; rfl, hf, ?_⟩
        intro a ha
        rcases List.mem_cons.1 ha with rfl | ha
        · exact hg
        · exact hpre a ha
      · rintro ⟨pre, post, hl, hf, hpre⟩
        cases pre with
        | nil =>
          simp only [List.nil_append, List.cons.injEq] at hl
          exact absurd (hl.1 ▸ hf) hg
        | cons a pre1 =>
          simp only [List.cons_append, List.cons.injEq] at hl
          exact ⟨pre1, post, hl.2, hf, fun b hb => hpre b (List.mem_cons_of_mem _ hb)⟩

/-- The lookup loop fails with the `couldn't find file` error when no file of the list
has the name. -/
theorem fileFromReq_loop_error (name : String) (l : List FileDescriptorProto)
    (h : ∀ g ∈ l, g.GetName ≠ name) :
    fileFromReq.loop name l = Except.error ("couldn't find file to generate: " ++ name) := by
  induction l with
  | nil => rfl
  | cons g rest ih =>
    unfold fileFromReq.loop
    rw [if_neg (h g (List.mem_cons_self _ _))]
    exact ih (fun a ha => h a (List.mem_cons_of_mem _ ha))

/-- The lookup loop returns some file as soon as the list holds a file with the name. -/
theorem fileFromReq_loop_ok_of_mem (name : String) (l : List FileDescriptorProto)
    (g : FileDescriptorProto) (hg : g ∈ l) (hn : g.GetName = name) :
    ∃ f, fileFromReq.loop name l = Except.ok f := by
  induction l with
  | nil => cases hg
  | cons c rest ih =>
    unfold fileFromReq.loop
    by_cases hc : c.GetName = name
    · exact ⟨c, by rw [if_pos hc]⟩
    · rw [if_neg hc]
      rcases List.mem_cons.1 hg with rfl | hr
      · exact absurd hn hc
      · exact ih hr

/-- C11: `fileFromReq(req, name)` returns a file if and only if some file of
`req.ProtoFile` has a name equal to `name`; the file returned is the first such file of
`req.ProtoFile`; and when no file matches, the result is the error and no file. -/
theorem C11_fileFromReq_first_match (req : CodeGeneratorRequest) (name : String) :
    ((∃ f, fileFromReq req name = Except.ok f) ↔ ∃ g ∈ req.ProtoFile, g.GetName = name) ∧
    (∀ f, fileFromReq req name = Except.ok f ↔
      ∃ pre post, req.ProtoFile = pre ++ f :: post ∧ f.GetName = name ∧
        ∀ g ∈ pre, g.GetName ≠ name) ∧
    ((∀ g ∈ req.ProtoFile, g.GetName ≠ name) →
      fileFromReq req name = Except.error ("couldn't find file to generate: " ++ name)) := by
  refine ⟨?_, fun f => fileFromReq_loop_ok_iff name req.ProtoFile f,
    fileFromReq_loop_error name req.ProtoFile⟩
  constructor
  · rintro ⟨f, hf⟩
    obtain ⟨pre, post, hl, hn, _⟩ := (fileFromReq_loop_ok_iff name req.ProtoFile f).1 hf
    exact ⟨f, by rw [hl]; simp, hn⟩
  · rintro ⟨g, hg, hn⟩
    exact fileFromReq_loop_ok_of_mem name req.ProtoFile g hg hn

/-! ## `getFieldType` as a function of four inputs, and the walker's dereferences -/

/-- C19: two field descriptors that agree on wire type, label and qualified type name get
the same result from `getFieldType` in the same package, whatever their other attributes
(name, number, default value, options, ...) are. -/
theorem C19_getFieldType_four_inputs (f g : FieldDescriptorProto) (p : String)
    (hT : f.Type_ = g.Type_) (hL : f.Label = g.Label) (hN : f.TypeName = g.TypeName) :
    getFieldType f p = getFieldType g p := by
  simp only [getFieldType, hT, hL]
  cases g.Type_ with
  | none => rfl
  | some t => simp only [switch_congr f g p t hN]

/-- C19 at two `TYPE_MESSAGE` fields that differ in name, number, default value and
options. -/
theorem C19_getFieldType_four_inputs_witness :
    getFieldType { sampleRepeated with Name := some "items", Number := some 1 } "pkgA" =
      getFieldType sampleRepeatedOther "pkgA" :=
  C19_getFieldType_four_inputs _ _ "pkgA" rfl rfl rfl

/-- The switch returns whenever the type name is present on a `TYPE_MESSAGE` field. -/
theorem switch_isSome (f : FieldDescriptorProto) (p : String) (t : Int)
    (hN : t = FieldDescriptorProto_TYPE_MESSAGE → f.TypeName ≠ none) :
    ∃ ret, getFieldType.switch f p t = some ret := by
  by_cases hm : t = FieldDescriptorProto_TYPE_MESSAGE
  · subst hm
    cases hn : f.TypeName with
    | none => exact absurd hn (hN rfl)
    | some typeName => exact ⟨_, switch_message f p typeName hn⟩
  · unfold getFieldType.switch
    simp only [hm, if_false]
    repeat (first | exact ⟨_, rfl⟩ | split)

/-- `getFieldType` returns whenever type and label are present, and the type name too on
a `TYPE_MESSAGE` field. -/
theorem getFieldType_isSome (f : FieldDescriptorProto) (p : String)
    (hT : f.Type_ ≠ none) (hL : f.Label ≠ none)
    (hN : f.Type_ = some FieldDescriptorProto_TYPE_MESSAGE → f.TypeName ≠ none) :
    ∃ r, getFieldType f p = some r := by
  obtain ⟨t, ht⟩ := Option.ne_none_iff_exists'.1 hT
  obtain ⟨l, hl⟩ := Option.ne_none_iff_exists'.1 hL
  obtain ⟨ret, hret⟩ := switch_isSome f p t (fun h => hN (h ▸ ht))
  rw [getFieldType_of_present f p t l ht hl, hret]
  exact ⟨_, rfl⟩

/-- The field loop completes when every dereferenced attribute is present. -/
theorem main_fieldLoop_isSome (p : String) (fs : List FieldDescriptorProto) (acc : List Field)
    (h : ∀ field ∈ fs, field.Name ≠ none ∧ field.Type_ ≠ none ∧ field.Label ≠ none ∧
      (field.Type_ = some FieldDescriptorProto_TYPE_MESSAGE → field.TypeName ≠ none)) :
    ∃ out, main_fieldLoop (some p) fs acc = some out := by
  induction fs generalizing acc with
  | nil => exact ⟨acc, rfl⟩
  | cons field rest ih =>
    obtain ⟨hn, hT, hL, hN⟩ := h field (List.mem_cons_self _ _)
    obtain ⟨name, hname⟩ := Option.ne_none_iff_exists'.1 hn
    obtain ⟨t, ht⟩ := getFieldType_isSome field p hT hL hN
    simp only [main_fieldLoop, hname, ht]
    exact ih _ (fun g hg => h g (List.mem_cons_of_mem _ hg))

/-- The message loop completes when every dereferenced attribute is present. -/
theorem main_messageLoop_isSome (f : FileDescriptorProto) (p : String)
    (hp : f.Package = some p) (msgs : List DescriptorProto) (acc : List Message)
    (h : ∀ msg ∈ msgs, msg.Name ≠ none ∧
      ∀ field ∈ msg.Field, field.Name ≠ none ∧ field.Type_ ≠ none ∧ field.Label ≠ none ∧
        (field.Type_ = some FieldDescriptorProto_TYPE_MESSAGE → field.TypeName ≠ none)) :
    ∃ out, main_messageLoop f msgs acc = some out := by
  induction msgs generalizing acc with
  | nil => exact ⟨acc, rfl⟩
  | cons msg rest ih =>
    obtain ⟨hn, hfs⟩ := h msg (List.mem_cons_self _ _)
    obtain ⟨name, hname⟩ := Option.ne_none_iff_exists'.1 hn
    obtain ⟨fields, hfields⟩ := main_fieldLoop_isSome p msg.Field [] hfs
    simp only [main_messageLoop, hname, hp, hfields]
    exact ih _ (fun g hg => h g (List.mem_cons_of_mem _ hg))

/-- C20: when the package name, every message name, every field's name, wire type and
label are present, and the qualified type name is present on every `TYPE_MESSAGE` field,
building the message model completes with a value: no dereference meets `nil`. -/
theorem C20_walker_completes (f : FileDescriptorProto)
    (hp : f.Package ≠ none)
    (h : ∀ msg ∈ f.MessageType, msg.Name ≠ none ∧
      ∀ field ∈ msg.Field, field.Name ≠ none ∧ field.Type_ ≠ none ∧ field.Label ≠ none ∧
        (field.Type_ = some FieldDescriptorProto_TYPE_MESSAGE → field.TypeName ≠ none)) :
    ∃ ms, main_messages f = some ms := by
  obtain ⟨p, hp1⟩ := Option.ne_none_iff_exists'.1 hp
  exact main_messageLoop_isSome f p hp1 f.MessageType [] h

/-- C20 at the sample schema file (one message with an `INT64` field and a repeated
`TYPE_MESSAGE` field). -/
theorem C20_walker_completes_witness : ∃ ms, main_messages sampleFile = some ms :=
  C20_walker_completes sampleFile (by decide) (by decide)

/-! ## Output name and content -/

/-- What `filepath.Ext` returns is a suffix of the path. -/
theorem Ext_loop_suffix (before after : List Char) :
    ∃ pre, before.reverse ++ after = pre ++ Ext.loop before after := by
  induction before generalizing after with
  | nil => exact ⟨after, by simp [Ext.loop]⟩
  | cons c b ih =>
    unfold Ext.loop
    by_cases h1 : c = '/'
    · rw [if_pos h1]
      exact ⟨_, (List.append_nil _).symm⟩
    · rw [if_neg h1]
      by_cases h2 : c = '.'
      · rw [if_pos h2]
        exact ⟨b.reverse, by simp⟩
      · rw [if_neg h2]
        obtain ⟨pre, hpre⟩ := ih (c :: after)
        exact ⟨pre, by rw [← hpre]; simp⟩

/-- The loop of `filepath.Ext` in closed form. -/
theorem Ext_loop_eq (before after : List Char) :
    Ext.loop before after =
      if '.' ∈ before.takeWhile (fun c => c ≠ '/') then
        '.' :: ((before.takeWhile (fun c => c ≠ '/')).takeWhile (fun c => c ≠ '.')).reverse
          ++ after
      else [] := by
  induction before generalizing after with
  | nil => simp [Ext.loop]
  | cons c b ih =>
    unfold Ext.loop
    by_cases h1 : c = '/'
    · simp [h1]
    · rw [if_neg h1]
      by_cases h2 : c = '.'
      · subst h2
        simp
      · rw [if_neg h2, ih]
        have h2' : ¬ '.' = c := fun h => h2 h.symm
        simp [List.takeWhile_cons, h1, h2, h2']

/-- The loop of `filepath.Ext` on a path that ends in `.` followed by characters other
than `.` and `/`. -/
theorem Ext_loop_of_plain (l rest after : List Char)
    (h : ∀ c ∈ l, c ≠ '.' ∧ c ≠ '/') :
    Ext.loop (l ++ '.' :: rest) after = '.' :: l.reverse ++ after := by
  induction l generalizing after with
  | nil => simp [Ext.loop]
  | cons c l ih =>
    obtain ⟨h2, h1⟩ := h c (List.mem_cons_self _ _)
    have hstep : Ext.loop (c :: l ++ '.' :: rest) after =
        Ext.loop (l ++ '.' :: rest) (c :: after) := by
      rw [List.cons_append, Ext.loop, if_neg h1, if_neg h2]
    rw [hstep, ih _ (fun a ha => h a (List.mem_cons_of_mem _ ha))]
    simp

/-- The function `filepath.Ext` computes the extension as the specification words it. -/
theorem Ext_eq_specExtension (name : String) : Ext name = specExtension name := by
  unfold Ext specExtension
  rw [Ext_loop_eq]
  simp only [List.mem_reverse, List.reverse_reverse, List.append_nil]
  split <;> rfl

theorem TrimSuffix_append (pre suf : String) : TrimSuffix (pre ++ suf) suf = pre := by
  have h : HasSuffix (pre ++ suf) suf = true := by
    unfold HasSuffix
    simp [String.data_append]
  unfold TrimSuffix
  rw [if_pos h]
  simp [String.data_append]

/-- C13: the output name is `base ++ "." ++ file_ext`, where `base` is the source name
with its extension removed, the extension being the suffix that starts at the last `.`
of the final `/`-separated path element (empty when that element has no `.`); so a name
`b ++ "." ++ e` with no `.` and no `/` in `e` yields `b ++ "." ++ file_ext`. -/
theorem C13_output_name (f : FileDescriptorProto) (fileExt : String) :
    (∃ base, f.GetName = base ++ specExtension f.GetName ∧
      main_outputName f fileExt = base ++ "." ++ fileExt) ∧
    (∀ b e : String, '.' ∉ e.data → '/' ∉ e.data → f.GetName = b ++ "." ++ e →
      main_outputName f fileExt = b ++ "." ++ fileExt) := by
  constructor
  · obtain ⟨pre, hpre⟩ := Ext_loop_suffix f.GetName.data.reverse []
    have hname : f.GetName = String.mk pre ++ Ext f.GetName := by
      apply String.ext
      simpa [Ext, String.data_append] using hpre
    refine ⟨String.mk pre, by rw [← Ext_eq_specExtension]; exact hname, ?_⟩
    unfold main_outputName
    simp only
    conv_lhs => rw [hname]
    have hext : Ext (String.mk pre ++ Ext f.GetName) = Ext f.GetName := by rw [← hname]
    rw [hext, TrimSuffix_append]
  · intro b e he1 he2 hname
    have hExt : Ext f.GetName = "." ++ e := by
      unfold Ext
      rw [hname]
      apply String.ext
      have hd : (b ++ "." ++ e).data.reverse = e.data.reverse ++ '.' :: b.data.reverse := by
        simp [String.data_append]
      rw [hd, Ext_loop_of_plain]
      · simp [String.data_append]
      · intro c hc
        rw [List.mem_reverse] at hc
        exact ⟨fun h => he1 (h ▸ hc), fun h => he2 (h ▸ hc)⟩
    unfold main_outputName
    simp only
    rw [hExt, hname, String.append_assoc b "." e, TrimSuffix_append]

/-- C13 at the source name `dir/a.b.proto` with `file_ext = ts`. -/
theorem C13_output_name_witness :
    main_outputName { sampleFile with Name := some ("dir/a.b" ++ "." ++ "proto") } "ts" =
      "dir/a.b" ++ "." ++ "ts" :=
  (C13_output_name { sampleFile with Name := some ("dir/a.b" ++ "." ++ "proto") } "ts").2
    "dir/a.b" "proto" (by decide) (by decide) rfl

/-- The function `strings.TrimLeft(r, "\n")` removes leading newline characters only. -/
theorem TrimLeft_newline (r : String) :
    (TrimLeft r "\n").data.head? ≠ some '\n' ∧
    (∃ k, r = String.mk (List.replicate k '\n') ++ TrimLeft r "\n") ∧
    TrimLeft (TrimLeft r "\n") "\n" = TrimLeft r "\n" := by
  have hcut : (fun c : Char => ("\n" : String).data.contains c) = fun c => decide (c = '\n') := by
    funext c
    show ['\n'].contains c = decide (c = '\n')
    simp
  unfold TrimLeft
  rw [hcut]
  refine ⟨?_, ?_, ?_⟩
  · intro h
    have := List.head?_dropWhile_not (fun c => decide (c = '\n')) r.data
    simp only at h
    rw [h] at this
    simp at this
  · refine ⟨(r.data.takeWhile (fun c => decide (c = '\n'))).length, ?_⟩
    apply String.ext
    simp only [String.data_append]
    have htw : r.data.takeWhile (fun c => decide (c = '\n')) =
        List.replicate (r.data.takeWhile (fun c => decide (c = '\n'))).length '\n' := by
      rw [List.eq_replicate_iff]
      refine ⟨rfl, fun b hb => ?_⟩
      simpa using List.mem_takeWhile_imp hb
    rw [← htw, List.takeWhile_append_dropWhile]
  · simp only [List.dropWhile_idempotent]

/-- C14: the emitted content is the rendered text without its leading newline
characters: it does not start with a newline, the rendered text is some number `k ≥ 0`
of newlines followed by the content, and trimming the content again changes nothing. -/
theorem C14_content_has_no_leading_newline (execute : TemplateData → String)
    (fileExt : String) (f : FileDescriptorProto) :
    ∃ c, (main_outputFile execute fileExt f).Content = some c ∧
      c.data.head? ≠ some '\n' ∧
      (∃ k, main_rendered execute f = String.mk (List.replicate k '\n') ++ c) ∧
      TrimLeft c "\n" = c := by
  obtain ⟨h1, h2, h3⟩ := TrimLeft_newline (main_rendered execute f)
  exact ⟨_, rfl, h1, h2, h3⟩

/-! ## The generation loop -/

/-- The generation loop returns `out` exactly when `out` is the entry value of `files`
followed by one entry per requested name, position by position. -/
theorem main_fileLoop_iff (execute : TemplateData → String) (fileExt : String)
    (req : CodeGeneratorRequest) (names : List String)
    (acc out : List CodeGeneratorResponse_File) :
    main_fileLoop execute fileExt req names acc = some out ↔
      ∃ tail, out = acc ++ tail ∧
        List.Forall₂ (fun name file => ∃ f, fileFromReq req name = Except.ok f ∧
          (∃ ms, main_messages f = some ms) ∧ file = main_outputFile execute fileExt f)
          names tail := by
  induction names generalizing acc with
  | nil =>
    simp only [main_fileLoop, Option.some.injEq, List.forall₂_nil_left_iff]
    constructor
    · rintro rfl
      exact ⟨[], by simp, rfl⟩
    · rintro ⟨tail, rfl, rfl⟩
      simp
  | cons name rest ih =>
    simp only [main_fileLoop, List.forall₂_cons_left_iff]
    constructor
    · intro h
      rcases hf : fileFromReq req name with e | f
      · simp [hf] at h
      rcases hm : main_messages f with _ | ms
      · simp [hf, hm] at h
      simp only [hf, hm] at h
      obtain ⟨tail, rfl, htail⟩ := (ih _).1 h
      exact ⟨main_outputFile execute fileExt f :: tail, by simp, _, tail,
        ⟨f, rfl, ⟨ms, hm⟩, rfl⟩, htail, rfl⟩
    · rintro ⟨tail, rfl, file, tail2, ⟨f, hf, ⟨ms, hm⟩, rfl⟩, htail, rfl⟩
      simp only [hf, hm]
      exact (ih _).2 ⟨tail2, by simp, htail⟩

/-- C12: the file list of the emitted response is produced exactly when it pairs off,
position by position and in the order requested, with `file_to_generate`: the i-th entry
is the output built for the file that `fileFromReq` finds for the i-th requested name
(every requested name is found, and the walker completes on the file found); the list
then has exactly as many entries as `file_to_generate`. -/
theorem C12_one_entry_per_requested_file (execute : TemplateData → String) (fileExt : String)
    (req : CodeGeneratorRequest) (files : List CodeGeneratorResponse_File) :
    (main_generate execute fileExt req = some files ↔
      List.Forall₂ (fun name file => ∃ f, fileFromReq req name = Except.ok f ∧
        (∃ ms, main_messages f = some ms) ∧ file = main_outputFile execute fileExt f)
        req.FileToGenerate files) ∧
    (main_generate execute fileExt req = some files →
      files.length = req.FileToGenerate.length) := by
  have hiff : main_generate execute fileExt req = some files ↔
      List.Forall₂ (fun name file => ∃ f, fileFromReq req name = Except.ok f ∧
        (∃ ms, main_messages f = some ms) ∧ file = main_outputFile execute fileExt f)
        req.FileToGenerate files := by
    unfold main_generate
    rw [main_fileLoop_iff]
    constructor
    · rintro ⟨tail, rfl, h⟩
      simpa using h
    · intro h
      exact ⟨files, by simp, h⟩
  exact ⟨hiff, fun h => ((hiff.1 h).length_eq).symm⟩

/-- C12 at `file_to_generate = ["a.proto", "b.proto"]` with `file_ext = ts`: the response
holds the files `a.ts` and `b.ts`, in the order requested. -/
theorem C12_one_entry_per_requested_file_witness :
    main_generate sampleExecute "ts" sampleRequest =
      some [{ Name := some "a.ts", Content := some "raw" },
            { Name := some "b.ts", Content := some "raw" }] :=
  (C12_one_entry_per_requested_file sampleExecute "ts" sampleRequest _).1.2
    (List.Forall₂.cons
      ⟨{ Name := some "a.proto", Package := some "pkgA", MessageType := [], Service := [] },
        by rfl, ⟨[], by rfl⟩, by decide⟩
      (List.Forall₂.cons
        ⟨{ Name := some "b.proto", Package := some "pkgB", MessageType := [], Service := [] },
          by rfl, ⟨[], by rfl⟩, by decide⟩
        List.Forall₂.nil))

/-- C18, the code at the sample schema file: the walker builds the message model, and
the text rendered is the template run on the descriptor `f` itself, which differs from
the template run on any intermediate model. -/
theorem C18_renders_raw_descriptor :
    main_messages sampleFile =
      some [{ Name := "Req",
              Fields := [{ Comment := "", Name := "id", Type_ := "string" },
                         { Comment := "", Name := "items", Type_ := "Item[]" }] }] ∧
    main_rendered sampleExecute sampleFile =
      sampleExecute (TemplateData.descriptor sampleFile) ∧
    ∀ package messages services,
      main_rendered sampleExecute sampleFile ≠
        sampleExecute (TemplateData.model package messages services) := by
  refine ⟨by decide, rfl, ?_⟩
  intro package messages services
  show ("\n\nraw" : String) ≠ "\n\nmodel"
  decide

/-! ## `parseParameters` -/

/-- C15 as stated fails: with the parameter string present and empty,
`strings.Split("", ",")` yields the one token `""`, no flag has the name `""`, and
`parseParameters` ends the run. -/
theorem C15_counterexample :
    ({ FileToGenerate := [], Parameter := some "", ProtoFile := [] } :
      CodeGeneratorRequest).Parameter = some "" ∧
    Split "" ',' = [""] ∧
    parseParameters { FileToGenerate := [], Parameter := some "", ProtoFile := [] }
      { templatePath := "t.tmpl", fileExt := "ts" } = Except.error "Cannot set flag " := by
  refine ⟨rfl, by decide, by rfl⟩

/-- C15 amended: for a request that carries no parameter string (`req.Parameter` is
`nil`, so `GetParameter()` is `""`), `parseParameters` does not fail and leaves
`template_path` and `file_ext` at the values they had before the call. -/
theorem C15_absent_parameter_is_noop (req : CodeGeneratorRequest) (fs : FlagSet)
    (h : req.Parameter = none) :
    parseParameters req fs = Except.ok fs := by
  unfold parseParameters
  rw [h]

/-- C15 amended, at a request without parameter and the flag values `t.tmpl`, `ts`. -/
theorem C15_absent_parameter_is_noop_witness :
    parseParameters { FileToGenerate := ["a.proto"], Parameter := none, ProtoFile := [] }
      { templatePath := "t.tmpl", fileExt := "ts" } =
      Except.ok { templatePath := "t.tmpl", fileExt := "ts" } :=
  C15_absent_parameter_is_noop _ _ rfl

/-- One round of `genSplit` in closed form: the separator is found exactly when it occurs,
the piece is the text before its first occurrence and the rest is the text after it. -/
theorem genSplit_cut_eq (sep : Char) (l : List Char) :
    genSplit.cut sep l =
      if sep ∈ l then
        some (l.takeWhile (fun c => c ≠ sep), (l.dropWhile (fun c => c ≠ sep)).drop 1)
      else none := by
  induction l with
  | nil => simp [genSplit.cut]
  | cons c cs ih =>
    unfold genSplit.cut
    by_cases h : c = sep
    · subst h
      simp
    · have h' : ¬ sep = c := fun e => h e.symm
      rw [if_neg h, ih]
      by_cases hm : sep ∈ cs
      · simp [hm, h, h', List.takeWhile_cons, List.dropWhile_cons]
      · simp [hm, h, h']

/-- The call `strings.SplitN(p, "=", 2)` in the words of the specification: name and value
around the first `=`, the token alone when it has no `=`. -/
theorem SplitN_two (p : String) :
    SplitN p '=' 2 =
      if '=' ∈ p.data then [specTokenName p, specTokenValue p] else [p] := by
  unfold SplitN
  rw [if_neg (by decide)]
  rcases hp : p.data with _ | ⟨c, cs⟩
  · have : p = "" := String.ext hp
    subst this
    decide
  · have hk : min 2 ((c :: cs).length + 1) - 1 = 1 := by
      simp only [List.length_cons]
      omega
    rw [hk]
    simp only [genSplit, genSplit_cut_eq]
    by_cases hm : '=' ∈ c :: cs
    · rw [if_pos hm, if_pos hm]
      simp [specTokenName, specTokenValue, hp]
    · rw [if_neg hm, if_neg hm]
      simp only [List.map_cons, List.map_nil, List.cons.injEq, and_true]
      exact String.ext hp.symm

/-- A token without `=` is its own name and has the empty value. -/
theorem specToken_of_no_eq (p : String) (h : '=' ∉ p.data) :
    specTokenName p = p ∧ specTokenValue p = "" := by
  have hall : ∀ c ∈ p.data, (decide (c ≠ '=')) = true := by
    intro c hc
    simp only [decide_eq_true_eq]
    exact fun e => h (e ▸ hc)
  constructor
  · apply String.ext
    simp only [specTokenName]
    exact List.takeWhile_eq_self_iff.2 hall
  · apply String.ext
    simp only [specTokenValue]
    rw [List.dropWhile_eq_nil_iff.2 hall]
    rfl

/-- The flag lookup succeeds exactly on the two recognized names. -/
theorem FlagSet_Set_error_iff (fs : FlagSet) (name value : String) :
    (∃ e, fs.Set name value = Except.error e) ↔ name ∉ specRecognized := by
  unfold FlagSet.Set specRecognized
  by_cases h1 : name = "template_path"
  · simp [h1]
  · by_cases h2 : name = "file_ext"
    · simp [h2]
    · simp [h1, h2]

/-- One round of the loop of `parseParameters`, in the words of the specification. -/
theorem parseParameters_loop_cons (p : String) (rest : List String) (fs : FlagSet) :
    parseParameters.loop (p :: rest) fs =
      match fs.Set (specTokenName p) (specTokenValue p) with
      | Except.error _ => Except.error ("Cannot set flag " ++ p)
      | Except.ok fs1 => parseParameters.loop rest fs1 := by
  rw [parseParameters.loop, SplitN_two]
  by_cases hm : '=' ∈ p.data
  · rw [if_pos hm]
  · rw [if_neg hm]
    obtain ⟨hn, hv⟩ := specToken_of_no_eq p hm
    simp only [hn, hv]

/-- The loop of `parseParameters` fails exactly when some token has an unrecognized name. -/
theorem parseParameters_loop_error_iff (toks : List String) (fs : FlagSet) :
    (∃ e, parseParameters.loop toks fs = Except.error e) ↔
      ∃ tok ∈ toks, specTokenName tok ∉ specRecognized := by
  induction toks generalizing fs with
  | nil => simp [parseParameters.loop]
  | cons p rest ih =>
    rw [parseParameters_loop_cons]
    by_cases hr : specTokenName p ∈ specRecognized
    · have hok : ∃ fs1, fs.Set (specTokenName p) (specTokenValue p) = Except.ok fs1 := by
        cases hs : fs.Set (specTokenName p) (specTokenValue p) with
        | ok fs1 => exact ⟨fs1, rfl⟩
        | error e => exact absurd hr ((FlagSet_Set_error_iff fs _ _).1 ⟨e, hs⟩)
      obtain ⟨fs1, hfs1⟩ := hok
      simp only [hfs1, ih, List.mem_cons]
      constructor
      · rintro ⟨tok, ht, hn⟩
        exact ⟨tok, Or.inr ht, hn⟩
      · rintro ⟨tok, ht | ht, hn⟩
        · exact absurd (ht ▸ hr) hn
        · exact ⟨tok, ht, hn⟩
    · obtain ⟨e, he⟩ := (FlagSet_Set_error_iff fs _ (specTokenValue p)).2 hr
      simp only [he]
      exact ⟨fun _ => ⟨p, List.mem_cons_self _ _, hr⟩, fun _ => ⟨_, rfl⟩⟩

/-- One round of `genSplit` on a text that starts with a separator-free piece followed
by the separator. -/
theorem genSplit_cut_append (sep : Char) (piece rest : List Char) (h : sep ∉ piece) :
    genSplit.cut sep (piece ++ sep :: rest) = some (piece, rest) := by
  induction piece with
  | nil => simp [genSplit.cut]
  | cons c cs ih =>
    have hc : c ≠ sep := fun e => h (e ▸ List.mem_cons_self _ _)
    have hcs : sep ∉ cs := fun hm => h (List.mem_cons_of_mem _ hm)
    rw [List.cons_append, genSplit.cut, if_neg hc, ih hcs]

/-- What one round of `genSplit` cuts off: a separator-free piece, the separator, the
rest. -/
theorem genSplit_cut_some (sep : Char) (l piece rest : List Char)
    (h : genSplit.cut sep l = some (piece, rest)) :
    l = piece ++ sep :: rest ∧ sep ∉ piece := by
  rw [genSplit_cut_eq] at h
  by_cases hm : sep ∈ l
  · rw [if_pos hm] at h
    simp only [Option.some.injEq, Prod.mk.injEq] at h
    obtain ⟨h1, h2⟩ := h
    have hnot : sep ∉ piece := by
      rw [← h1]
      intro hin
      simpa using List.mem_takeWhile_imp hin
    refine ⟨?_, hnot⟩
    have hsplit := List.takeWhile_append_dropWhile (fun c => decide (c ≠ sep)) l
    rcases hd : l.dropWhile (fun c => decide (c ≠ sep)) with _ | ⟨d, ds⟩
    · rw [hd, List.append_nil] at hsplit
      rw [h1] at hsplit
      exact absurd (hsplit ▸ hm) hnot
    · have hhead := List.head?_dropWhile_not (fun c => decide (c ≠ sep)) l
      rw [hd] at hhead h2 hsplit
      simp only [List.head?_cons, decide_eq_false_iff_not, ne_eq, not_not] at hhead
      simp only [List.drop_succ_cons, List.drop_zero] at h2
      rw [h1, h2, hhead] at hsplit
      exact hsplit.symm
  · rw [if_neg hm] at h
    cases h

/-- The function `genSplit` leaves a text without the separator in one piece. -/
theorem genSplit_of_not_mem (sep : Char) (k : Nat) (l : List Char) (h : sep ∉ l) :
    genSplit sep k l = [l] := by
  cases k with
  | zero => rfl
  | succ k => simp [genSplit, genSplit_cut_eq, h]

/-- Splitting the join of comma-free tokens gives the tokens back. -/
theorem Split_specJoin (toks : List String) (hne : toks ≠ [])
    (hcomma : ∀ tok ∈ toks, ',' ∉ tok.data) :
    Split (specJoin toks) ',' = toks := by
  induction toks with
  | nil => exact absurd rfl hne
  | cons tok rest ih =>
    have htok := hcomma tok (List.mem_cons_self _ _)
    cases rest with
    | nil =>
      simp only [specJoin, Split]
      rw [genSplit_of_not_mem _ _ _ htok]
      rfl
    | cons next rest =>
      have ih1 := ih (by simp) (fun t ht => hcomma t (List.mem_cons_of_mem _ ht))
      have hdata : (specJoin (tok :: next :: rest)).data =
          tok.data ++ ',' :: (specJoin (next :: rest)).data := by
        simp [specJoin, String.data_append]
      have hcount : (tok.data ++ ',' :: (specJoin (next :: rest)).data).count ',' =
          (specJoin (next :: rest)).data.count ',' + 1 := by
        rw [List.count_append, List.count_cons_self, List.count_eq_zero.2 htok]
        omega
      unfold Split at ih1 ⊢
      rw [hdata, hcount, genSplit, genSplit_cut_append _ _ _ htok]
      simp only [List.map_cons, ih1]

/-- The pieces of `strings.Split(s, ",")` are at least one, hold no comma, and joined
with commas give `s` back. -/
theorem genSplit_pieces (k : Nat) (l : List Char) (hk : l.count ',' ≤ k) :
    (genSplit ',' k l).map String.mk ≠ [] ∧
    (∀ tok ∈ (genSplit ',' k l).map String.mk, ',' ∉ tok.data) ∧
    specJoin ((genSplit ',' k l).map String.mk) = String.mk l := by
  induction k generalizing l with
  | zero =>
    have hnot : ',' ∉ l := List.count_eq_zero.1 (Nat.le_zero.1 hk)
    simp only [genSplit, List.map_cons, List.map_nil]
    exact ⟨by simp, by simpa using hnot, rfl⟩
  | succ k ih =>
    rcases hcut : genSplit.cut ',' l with _ | ⟨piece, rest⟩
    · have hnot : ',' ∉ l := by
        intro hm
        rw [genSplit_cut_eq, if_pos hm] at hcut
        cases hcut
      rw [genSplit_of_not_mem _ _ _ hnot]
      simp only [List.map_cons, List.map_nil]
      exact ⟨by simp, by simpa using hnot, rfl⟩
    · obtain ⟨hl, hpiece⟩ := genSplit_cut_some _ _ _ _ hcut
      have hrest : rest.count ',' ≤ k := by
        rw [hl, List.count_append, List.count_cons_self] at hk
        omega
      obtain ⟨h1, h2, h3⟩ := ih rest hrest
      simp only [genSplit, hcut, List.map_cons]
      refine ⟨by simp, ?_, ?_⟩
      · intro tok ht
        rcases List.mem_cons.1 ht with rfl | ht
        · exact hpiece
        · exact h2 tok ht
      · rcases hr : (genSplit ',' k rest).map String.mk with _ | ⟨next, more⟩
        · exact absurd hr h1
        · rw [hr] at h3
          rw [specJoin, h3, hl]
          apply String.ext
          simp [String.data_append]

/-- C16: a parameter string is made of comma-free tokens in exactly one way (at least one
token, joined by `,`); for a request that carries a parameter string, `parseParameters`
fails if and only if at least one of these tokens has a name (the text before its first
`=`, the whole token when it has none) that is not `template_path` or `file_ext`; and
when it fails the run ends before generation: `main` emits no file list. -/
theorem C16_fails_iff_unknown_option (ParseFiles : String → Option (TemplateData → String))
    (req : CodeGeneratorRequest) (fs : FlagSet) (parameter : String)
    (hp : req.Parameter = some parameter) :
    (∃ toks, toks ≠ [] ∧ (∀ tok ∈ toks, ',' ∉ tok.data) ∧ specJoin toks = parameter) ∧
    (∀ toks, toks ≠ [] → (∀ tok ∈ toks, ',' ∉ tok.data) → specJoin toks = parameter →
      ((∃ e, parseParameters req fs = Except.error e) ↔
        ∃ tok ∈ toks, specTokenName tok ∉ specRecognized)) ∧
    ((∃ e, parseParameters req fs = Except.error e) → main ParseFiles fs req = none) := by
  refine ⟨?_, ?_, ?_⟩
  · obtain ⟨h1, h2, h3⟩ := genSplit_pieces (parameter.data.count ',') parameter.data
      (Nat.le_refl _)
    exact ⟨_, h1, h2, h3⟩
  · intro toks hne hcomma hjoin
    have hrun : parseParameters req fs = parseParameters.loop toks fs := by
      unfold parseParameters
      rw [hp, ← hjoin]
      simp only [Split_specJoin toks hne hcomma]
    rw [hrun]
    exact parseParameters_loop_error_iff _ fs
  · rintro ⟨e, he⟩
    unfold main
    rw [he]

/-- C16 at the parameter string `file_ext=ts,verbose`, made of the tokens `file_ext=ts`
and `verbose`: the run ends at the token `verbose`, which names no option, and `main`
emits nothing. -/
theorem C16_fails_iff_unknown_option_witness :
    specJoin ["file_ext=ts", "verbose"] = "file_ext=ts,verbose" ∧
    parseParameters { sampleRequest with Parameter := some "file_ext=ts,verbose" }
        { templatePath := "t.tmpl", fileExt := "" } =
      Except.error "Cannot set flag verbose" ∧
    (∃ tok ∈ ["file_ext=ts", "verbose"], specTokenName tok ∉ specRecognized) ∧
    main (fun _ => some sampleExecute) { templatePath := "t.tmpl", fileExt := "" }
      { sampleRequest with Parameter := some "file_ext=ts,verbose" } = none :=
  ⟨by decide, by rfl,
    ((C16_fails_iff_unknown_option (fun _ => some sampleExecute)
      { sampleRequest with Parameter := some "file_ext=ts,verbose" }
      { templatePath := "t.tmpl", fileExt := "" } "file_ext=ts,verbose" rfl).2.1
      ["file_ext=ts", "verbose"] (by decide) (by decide) (by decide)).1 ⟨_, by rfl⟩,
    (C16_fails_iff_unknown_option (fun _ => some sampleExecute)
      { sampleRequest with Parameter := some "file_ext=ts,verbose" }
      { templatePath := "t.tmpl", fileExt := "" } "file_ext=ts,verbose" rfl).2.2
      ⟨_, by rfl⟩⟩

/-- The final value over `p :: rest` when `p` names the option. -/
theorem specFinalValue_cons_same (p : String) (rest : List String) (o old : String)
    (h : specTokenName p = o) :
    specFinalValue (p :: rest) o old = specFinalValue rest o (specTokenValue p) := by
  unfold specFinalValue
  rw [List.filter_cons_of_pos (by simpa using h), List.getLast?_cons]
  cases (rest.filter (fun tok => specTokenName tok = o)).getLast? <;> rfl

/-- The final value over `p :: rest` when `p` names another option. -/
theorem specFinalValue_cons_other (p : String) (rest : List String) (o old : String)
    (h : specTokenName p ≠ o) :
    specFinalValue (p :: rest) o old = specFinalValue rest o old := by
  unfold specFinalValue
  rw [List.filter_cons_of_neg (by simpa using h)]

/-- The loop of `parseParameters` on tokens that all name recognized options. -/
theorem parseParameters_loop_ok (toks : List String) (fs : FlagSet)
    (h : ∀ tok ∈ toks, specTokenName tok ∈ specRecognized) :
    parseParameters.loop toks fs =
      Except.ok { templatePath := specFinalValue toks "template_path" fs.templatePath,
                  fileExt := specFinalValue toks "file_ext" fs.fileExt } := by
  induction toks generalizing fs with
  | nil => rfl
  | cons p rest ih =>
    have hp := h p (List.mem_cons_self _ _)
    have hrest := fun tok ht => h tok (List.mem_cons_of_mem _ ht)
    rw [parseParameters_loop_cons]
    simp only [specRecognized, List.mem_cons, List.mem_singleton, List.not_mem_nil,
      or_false] at hp
    rcases hp with hp | hp
    · have hne : specTokenName p ≠ "file_ext" := by rw [hp]; decide
      simp only [FlagSet.Set, hp, if_true]
      rw [ih _ hrest, specFinalValue_cons_same p rest _ _ hp,
        specFinalValue_cons_other p rest _ _ hne]
    · have hne : specTokenName p ≠ "template_path" := by rw [hp]; decide
      have hne' : ¬ ("file_ext" : String) = "template_path" := by decide
      simp only [FlagSet.Set, hp, hne', if_true, if_false]
      rw [ih _ hrest, specFinalValue_cons_same p rest _ _ hp,
        specFinalValue_cons_other p rest _ _ hne]

/-- C17: when every comma-separated token of the parameter string names a recognized
option, `parseParameters` succeeds, and afterwards each option holds the text after the
first `=` of the last token naming it (the empty string when that token has no `=`), or
its previous value when no token names it. -/
theorem C17_options_take_last_value (req : CodeGeneratorRequest) (fs : FlagSet)
    (parameter : String) (hp : req.Parameter = some parameter)
    (h : ∀ tok ∈ Split parameter ',', specTokenName tok ∈ specRecognized) :
    parseParameters req fs =
      Except.ok
        { templatePath :=
            specFinalValue (Split parameter ',') "template_path" fs.templatePath,
          fileExt := specFinalValue (Split parameter ',') "file_ext" fs.fileExt } := by
  unfold parseParameters
  rw [hp]
  exact parseParameters_loop_ok _ fs h

/-- C17 at `template_path=/x/y,file_ext=go`: `template_path` becomes `/x/y` and `file_ext`
becomes `go`. -/
theorem C17_options_take_last_value_witness :
    parseParameters sampleRequest { templatePath := "", fileExt := "" } =
      Except.ok { templatePath := "/x/y", fileExt := "go" } :=
  (C17_options_take_last_value sampleRequest { templatePath := "", fileExt := "" }
    "template_path=/x/y,file_ext=go" rfl (by decide)).trans (by rfl)

end ProtocGenGeneric
